import Mathlib

/-!
Verification development for the `decorate-it` service-method decorator
(`src/decorator.js`).

The code is shallowly embedded as follows.

* JavaScript values are modelled by `JVal`: primitives are immediate, and
  every object-like value (plain object, array, function) lives in an
  explicit heap (`Store`, a list of `HNode`); a `JVal.ref a` is a pointer
  into the heap, so reference identity (used by the serializer's `seen`
  array via `Array.prototype.indexOf`) is address equality, and cyclic
  object graphs are representable.
* `_sanitizeObject` / `_serializeObject` model
  `JSON.parse(JSON.stringify(obj, replacer))` followed by `util.inspect`.
  The replacer of `decorator.js` lines 33-64 is `serProp`; the output of
  the parse/stringify round-trip is a ground tree `SVal`.  `JSON.stringify`
  renders a top-level function (and nothing else in this value space) as
  the absent value, which makes `JSON.parse` throw; this is the `.error`
  result of `_sanitizeObject`.  The recursion is fuel-indexed; fuel
  `store.length + 1` is proven sufficient (`serProp_total`), matching the
  termination of the JS traversal (the `seen` array only grows).
* Promises are modelled by their eventual settlement (`Outcome.promise`),
  following the tagged-union reading of the duck-typed `result.then`
  check; thrown values and rejection reasons are `Thrown`.
* `bunyan` logger calls are modelled as emitted `LogRecord`s; the
  `_seqId` counter is threaded explicitly through `logDecorator`.
* `Joi.attempt` (external schema engine) is abstracted as the
  `validator` field of `Method`: it either returns the normalized named
  mapping or fails with the validation error value.
-/

/-- A JavaScript value: primitives are immediate, object-like values are
references (`ref`) into an explicit heap. -/
inductive JVal where
  | null : JVal
  | undefined : JVal
  | bool : Bool → JVal
  | num : Int → JVal
  | str : String → JVal
  | ref : Nat → JVal
deriving DecidableEq, Repr

/-- A heap node: a plain object (ordered fields), an array, or a function
object (functions are objects for `_.isObject`, and `JSON.stringify`
renders them as the absent value). -/
inductive HNode where
  | obj : List (String × JVal) → HNode
  | arr : List JVal → HNode
  | func : HNode
deriving DecidableEq, Repr

/-- The heap: `JVal.ref a` points to `store[a]`. -/
abbrev Store := List HNode

/-- The sanitized JSON tree produced by `JSON.parse(JSON.stringify _)`. -/
inductive SVal where
  | null : SVal
  | bool : Bool → SVal
  | num : Int → SVal
  | str : String → SVal
  | obj : List (String × SVal) → SVal
  | arr : List SVal → SVal
deriving Repr

/-- Global configuration `_config` (decorator.js lines 7-14); the
`loggerFactory` entry is an external collaborator and is not modelled. -/
structure SConfig where
  removeFields : List String := ["password", "token", "accessToken"]
  debug : Bool := true
  depth : Nat := 4
  maxArrayLength : Nat := 30
deriving DecidableEq, Repr

/-- The default configuration. -/
def defaultConfig : SConfig := {}

/-- JS truthiness of a modelled value (`value &&` checks). -/
def truthyB : JVal → Bool
  | .null => false
  | .undefined => false
  | .bool b => b
  | .num n => !(n == 0)
  | .str s => !(s == "")
  | .ref _ => true

/-- Property read `v[k]`: field lookup on a plain-object heap node,
`undefined` otherwise (mirrors the reads `value.connection`,
`value.method`, ... in the replacer). -/
def jsGetField (store : Store) (v : JVal) (k : String) : JVal :=
  match v with
  | .ref a =>
    match store[a]? with
    | some (.obj fs) => ((fs.find? (fun p => p.1 == k)).map (fun p => p.2)).getD .undefined
    | _ => .undefined
  | _ => .undefined

/-- `seen.indexOf(value) !== -1`: only object references are ever pushed
onto `seen`, and `indexOf` compares by reference identity. -/
def isSeenB (seen : List Nat) : JVal → Bool
  | .ref a => seen.contains a
  | _ => false

/-- `if (_.isObject(value)) seen.push(value)`. -/
def pushSeen (seen : List Nat) : JVal → List Nat
  | .ref a => seen ++ [a]
  | _ => seen

/-- The reduced projection for a field named `req` (decorator.js lines
45-53). -/
def reqProjection (store : Store) (v : JVal) : List (String × JVal) :=
  [("method", jsGetField store v "method"),
   ("url", jsGetField store v "url"),
   ("headers", jsGetField store v "headers"),
   ("remoteAddress", jsGetField store (jsGetField store v "connection") "remoteAddress"),
   ("remotePort", jsGetField store (jsGetField store v "connection") "remotePort")]

/-- The reduced projection for a field named `res` (decorator.js lines
54-59). -/
def resProjection (store : Store) (v : JVal) : List (String × JVal) :=
  [("statusCode", jsGetField store v "statusCode"),
   ("header", jsGetField store v "_header")]

/-- `_.isArray(value) && value.length > _config.maxArrayLength`. -/
def longArray (store : Store) (cfg : SConfig) : JVal → Bool
  | .ref a =>
    match store[a]? with
    | some (.arr es) => cfg.maxArrayLength < es.length
    | _ => false
  | _ => false

/-- The length of the array behind `v` (0 when `v` is not an array ref). -/
def arrLen (store : Store) : JVal → Nat
  | .ref a =>
    match store[a]? with
    | some (.arr es) => es.length
    | _ => 0
  | _ => 0

/-- Serialize the fields of an object through the replacer continuation
`f` (threading the shared `seen` array); fields whose serialization is the
absent value are omitted, as `JSON.stringify` does. -/
def serFieldsWith (f : List Nat → String → JVal → Except Unit (Option SVal × List Nat)) :
    List Nat → List (String × JVal) → Except Unit (List (String × SVal) × List Nat)
  | seen, [] => .ok ([], seen)
  | seen, (k, v) :: rest => do
    let (r, seen1) ← f seen k v
    let (rs, seen2) ← serFieldsWith f seen1 rest
    .ok ((match r with | some s => [(k, s)] | none => []) ++ rs, seen2)

/-- Serialize the elements of an array through the replacer continuation
`f`; `JSON.stringify` passes the decimal index string as the key and
renders an absent element as `null`. -/
def serElemsWith (f : List Nat → String → JVal → Except Unit (Option SVal × List Nat)) :
    List Nat → Nat → List JVal → Except Unit (List SVal × List Nat)
  | seen, _, [] => .ok ([], seen)
  | seen, i, v :: rest => do
    let (r, seen1) ← f seen (toString i) v
    let (rs, seen2) ← serElemsWith f seen1 (i + 1) rest
    .ok (r.getD .null :: rs, seen2)

/-- One `SerializeJSONProperty` step of
`JSON.stringify(obj, (name, value) => ...)` with the replacer of
`_sanitizeObject` (decorator.js lines 33-64): circular check against
`seen`, `seen.push` for objects, `removeFields` redaction, `req`/`res`
projections, long-array truncation, then structural descent.  The result
is `none` when the value serializes to the absent value (functions,
`undefined`).  Fuel-indexed; `.error` is fuel exhaustion, which
`serProp_total` shows unreachable at fuel `store.length + 1`. -/
def serProp (cfg : SConfig) (store : Store) :
    Nat → List Nat → String → JVal → Except Unit (Option SVal × List Nat)
  | 0, _, _, _ => .error ()
  | fuel + 1, seen, name, v =>
    if isSeenB seen v then .ok (some (.str "[Circular]"), seen)
    else
      if cfg.removeFields.contains name then .ok (some (.str "<removed>"), pushSeen seen v)
      else if name == "req" && truthyB v && truthyB (jsGetField store v "connection") then
        match serFieldsWith (serProp cfg store fuel) (pushSeen seen v) (reqProjection store v) with
        | .error e => .error e
        | .ok (out, seen2) => .ok (some (.obj out), seen2)
      else if name == "res" && truthyB v && truthyB (jsGetField store v "statusCode") then
        match serFieldsWith (serProp cfg store fuel) (pushSeen seen v) (resProjection store v) with
        | .error e => .error e
        | .ok (out, seen2) => .ok (some (.obj out), seen2)
      else if longArray store cfg v then
        .ok (some (.str ("Array(" ++ toString (arrLen store v) ++ ")")), pushSeen seen v)
      else
        match v with
        | .undefined => .ok (none, pushSeen seen v)
        | .null => .ok (some .null, pushSeen seen v)
        | .bool b => .ok (some (.bool b), pushSeen seen v)
        | .num n => .ok (some (.num n), pushSeen seen v)
        | .str s => .ok (some (.str s), pushSeen seen v)
        | .ref a =>
          match store[a]? with
          | some (.obj fs) =>
            match serFieldsWith (serProp cfg store fuel) (pushSeen seen v) fs with
            | .error e => .error e
            | .ok (out, seen2) => .ok (some (.obj out), seen2)
          | some (.arr es) =>
            match serElemsWith (serProp cfg store fuel) (pushSeen seen v) 0 es with
            | .error e => .error e
            | .ok (out, seen2) => .ok (some (.arr out), seen2)
          | some .func => .ok (none, pushSeen seen v)
          | none => .ok (none, pushSeen seen v)

/-- `_sanitizeObject` (decorator.js lines 28-65): identity on `undefined`,
otherwise `JSON.parse(JSON.stringify(obj, replacer))` starting from an
empty `seen` array and the pseudo-key `""`.  `.ok none` is the preserved
`undefined`; `.error` is the raised `SyntaxError` of
`JSON.parse(undefined)` when the whole value stringifies to the absent
value (there is no surrounding try/catch in this version of the code). -/
def _sanitizeObject (cfg : SConfig) (store : Store) (v : JVal) : Except Unit (Option SVal) :=
  if v = .undefined then .ok none
  else
    match serProp cfg store (store.length + 1) [] "" v with
    | .error e => .error e
    | .ok (some s, _) => .ok (some s)
    | .ok (none, _) => .error ()

/-- `util.inspect(x, { depth })`: a human-readable rendering of the
sanitized tree, collapsing structures nested beyond `depth`. -/
def inspectS : Nat → SVal → String
  | _, .null => "null"
  | _, .bool b => if b then "true" else "false"
  | _, .num n => toString n
  | _, .str s => "\x27" ++ s ++ "\x27"
  | 0, .obj _ => "[Object]"
  | 0, .arr _ => "[Array]"
  | depth + 1, .obj fs =>
    "\x7b " ++ String.intercalate ", " (fs.map (fun p => p.1 ++ ": " ++ inspectS depth p.2)) ++ " \x7d"
  | depth + 1, .arr es =>
    "[ " ++ String.intercalate ", " (es.map (fun s => inspectS depth s)) ++ " ]"

/-- `_serializeObject` (decorator.js lines 83-85):
`util.inspect(_sanitizeObject(obj), { depth: _config.depth })`.  A
sanitization failure propagates (there is no recovery in this layer). -/
def _serializeObject (cfg : SConfig) (store : Store) (v : JVal) : Except Unit String :=
  match _sanitizeObject cfg store v with
  | .error e => .error e
  | .ok none => .ok "undefined"
  | .ok (some s) => .ok (inspectS cfg.depth s)

/-- JS property write `o[k] = v` on a plain object: overwrite in place if
the key exists, otherwise append (insertion order preserved). -/
def objSet (o : List (String × JVal)) (k : String) (v : JVal) : List (String × JVal) :=
  if o.any (fun p => p.1 == k) then o.map (fun p => if p.1 == k then (k, v) else p)
  else o ++ [(k, v)]

/-- JS property read `o[k]` on a plain object, `undefined` when absent. -/
def objGet (o : List (String × JVal)) (k : String) : JVal :=
  ((o.find? (fun p => p.1 == k)).map (fun p => p.2)).getD .undefined

/-- The key used at iteration `i` of `_combineObject`'s loop:
`params[i]`, which is `undefined` past the end of the list, and a
property key of `undefined` is the string `"undefined"`. -/
def keyAt (params : List String) (i : Nat) : String :=
  params.getD i "undefined"

/-- The loop body of `_combineObject`:
`_.each(arr, (arg, i) => { ret[params[i]] = arg; })`. -/
def combineGo (params : List String) : Nat → List JVal → List (String × JVal) → List (String × JVal)
  | _, [], acc => acc
  | i, a :: rest, acc => combineGo params (i + 1) rest (objSet acc (keyAt params i) a)

/-- `_combineObject` (decorator.js lines 74-80). -/
def _combineObject (params : List String) (arr : List JVal) : List (String × JVal) :=
  combineGo params 0 arr []

/-- A partial options object passed to `configure`; `none` means the key
is absent from `opts` (the external `loggerFactory` key is not
modelled). -/
structure ConfigOpts where
  removeFields : Option (List String) := none
  debug : Option Bool := none
  depth : Option Nat := none
  maxArrayLength : Option Nat := none

/-- `configure` (decorator.js lines 112-114): `_.extend(_config, opts)` —
the keys present in `opts` overwrite the matching keys of the existing
configuration, all other keys are kept. -/
def configure (c : SConfig) (o : ConfigOpts) : SConfig :=
  { removeFields := o.removeFields.getD c.removeFields,
    debug := o.debug.getD c.debug,
    depth := o.depth.getD c.depth,
    maxArrayLength := o.maxArrayLength.getD c.maxArrayLength }

/-- `resetId` (decorator.js lines 119-121): the shared `_seqId` counter is
set back to `0`. -/
def resetId : Nat := 0

/-- A thrown value or rejection reason: either an ordinary JS value
(user errors, Joi validation errors), or the `SyntaxError` raised by the
serializer on an unsupported value shape. -/
inductive Thrown where
  | userE : JVal → Thrown
  | serFail : Thrown
deriving DecidableEq, Repr

/-- What a (wrapped or unwrapped) call ultimately produces when it does
not throw synchronously: an immediate value, or a promise together with
its eventual settlement.  This is the tagged-union reading of the
duck-typed `result && _.isFunction(result.then)` check. -/
inductive Outcome where
  | value : JVal → Outcome
  | promise : Except Thrown JVal → Outcome
deriving Repr

/-- The behavior of a JS function of the model: synchronous throw
(`.error`) or an `Outcome`. -/
abbrev JsFun := List JVal → Except Thrown Outcome

/-- One call to the bunyan logger: `logger.debug({ id }, msg, payload)`,
`logger.error(e)` (the synchronous-throw path, which passes no id), or
`logger.error({ id }, msg, e)`. -/
inductive LogRecord where
  | debug : Nat → String → String → LogRecord
  | errorPlain : Thrown → LogRecord
  | errorWithId : Nat → String → Thrown → LogRecord
deriving DecidableEq, Repr

/-- The id carried by a log record, if any. -/
def LogRecord.recId : LogRecord → Option Nat
  | .debug i _ _ => some i
  | .errorPlain _ => none
  | .errorWithId i _ _ => some i

/-- An operation together with the metadata the decorators read from it:
`params` (declared or introspected), the schema engine application
`validator` (abstracting `Joi.attempt (value, schema)`), the `sync` flag,
`removeOutput`, the `methodName` assigned by `decorate`, and the
underlying behavior `fn`. -/
structure Method where
  methodName : String
  params : List String
  validator : List (String × JVal) → Except JVal (List (String × JVal))
  sync : Bool
  removeOutput : Bool
  fn : JsFun

/-- The positional argument list rebuilt from the normalized named
mapping in declared parameter order (decorator.js lines 194-200). -/
def newArgsOf (params : List String) (normalized : List (String × JVal)) : List JVal :=
  params.map (fun p => objGet normalized p)

/-- `validateDecorator` (decorator.js lines 181-202): validate the named
mapping; on failure throw synchronously when `method.sync`, otherwise
return `Promise.reject(e)`; on success call the original operation with
the reconstructed positional arguments. -/
def validateDecorator (m : Method) (args : List JVal) : Except Thrown Outcome :=
  match m.validator (_combineObject m.params args) with
  | .error e => if m.sync then .error (.userE e) else .ok (.promise (.error (.userE e)))
  | .ok normalized => m.fn (newArgsOf m.params normalized)

/-- The fresh object `_combineObject(params, args)` allocated for the
ENTER record is a new heap node; serialize a reference to it. -/
def serializeNamedArgs (cfg : SConfig) (store : Store) (params : List String)
    (args : List JVal) : Except Unit String :=
  _serializeObject cfg (store ++ [HNode.obj (_combineObject params args)]) (.ref store.length)

/-- The `logExit` formatting step (decorator.js lines 139-143):
`removeOutput ? '<removed>' : _serializeObject(output)`. -/
def exitFmt (cfg : SConfig) (store : Store) (removeOutput : Bool) (v : JVal) :
    Except Unit String :=
  if removeOutput then .ok "<removed>" else _serializeObject cfg store v

/-- `logDecorator` (decorator.js lines 135-167) acting on the behavior
`f` of the wrapped method.  Takes the current `_seqId` and returns the
observable call result, the new `_seqId`, and the logger calls emitted.
A serializer failure while formatting (there is no try/catch around it)
surfaces as `.serFail`: synchronously for the ENTER record and the
synchronous `logExit`, and as a rejection of the returned promise when it
happens inside the `.then` handler (the chained `.catch` logs it and
rethrows). -/
def logDecorator (cfg : SConfig) (store : Store) (methodName : String)
    (params : List String) (removeOutput : Bool) (f : JsFun) (seqId : Nat)
    (args : List JVal) : Except Thrown Outcome × Nat × List LogRecord :=
  let id := seqId + 1
  match (if params.length != 0 then serializeNamedArgs cfg store params args else .ok "\x7b \x7d") with
  | .error _ => (.error .serFail, id, [])
  | .ok formattedInput =>
    let enterRec := LogRecord.debug id ("ENTER " ++ methodName ++ ":") formattedInput
    match f args with
    | .error e => (.error e, id, [enterRec, .errorPlain e])
    | .ok (.value v) =>
      match exitFmt cfg store removeOutput v with
      | .error _ => (.error .serFail, id, [enterRec])
      | .ok out =>
        (.ok (.value v), id, [enterRec, .debug id (" EXIT " ++ methodName ++ ":") out])
    | .ok (.promise (.ok v)) =>
      match exitFmt cfg store removeOutput v with
      | .error _ =>
        (.ok (.promise (.error .serFail)), id,
         [enterRec,
          .errorWithId id ("ERROR " ++ methodName ++ ": " ++ formattedInput ++ " \n") .serFail])
      | .ok out =>
        (.ok (.promise (.ok v)), id, [enterRec, .debug id (" EXIT " ++ methodName ++ ":") out])
    | .ok (.promise (.error e)) =>
      (.ok (.promise (.error e)), id,
       [enterRec, .errorWithId id ("ERROR " ++ methodName ++ ": " ++ formattedInput ++ " \n") e])

/-- The composed wrapper `decorate` installs for a method
(decorator.js line 219): `log(validate(method), logger, method)` — the
logging wrapper around the validation wrapper, with `methodName`,
`params` and `removeOutput` read from the method's metadata. -/
def decorated (cfg : SConfig) (store : Store) (m : Method) (seqId : Nat)
    (args : List JVal) : Except Thrown Outcome × Nat × List LogRecord :=
  logDecorator cfg store m.methodName m.params m.removeOutput (validateDecorator m) seqId args

/-- Successive invocations of a decorated method within one process
lifetime, threading the shared `_seqId` counter; for each invocation,
record the id it allocated and the log records it emitted. -/
def runCalls (cfg : SConfig) (store : Store) (m : Method) :
    Nat → List (List JVal) → Nat × List (Nat × List LogRecord)
  | seqId, [] => (seqId, [])
  | seqId, args :: rest =>
    let r := decorated cfg store m seqId args
    let t := runCalls cfg store m r.2.1 rest
    (t.1, (r.2.1, r.2.2) :: t.2)

/-- A value's references point into the store. -/
def wfValB (len : Nat) : JVal → Bool
  | .ref a => a < len
  | _ => true

/-- A node's field/element values point into the store. -/
def wfNodeB (len : Nat) : HNode → Bool
  | .obj fs => fs.all (fun p => wfValB len p.2)
  | .arr es => es.all (fun v => wfValB len v)
  | .func => true

/-- Every reference in the heap is a valid address (true of every JS
object graph). -/
def wfStoreB (store : Store) : Bool := store.all (wfNodeB store.length)

/-- Invariant of the `seen` array: it holds distinct valid addresses
(`seen.push` only ever adds a not-yet-seen object reference). -/
def SeenInv (store : Store) (seen : List Nat) : Prop :=
  seen.Nodup ∧ ∀ a ∈ seen, a < store.length

/-- The shapes whose `JSON.stringify` rendering is the absent value:
`undefined` and function objects (dangling references cannot arise in
JS; the model sends them to the absent value as well). -/
def NoneShape (store : Store) (v : JVal) : Prop :=
  v = .undefined ∨ ∃ a, v = .ref a ∧ (store[a]? = some .func ∨ store[a]? = none)

theorem SeenInv.length_le {store : Store} {seen : List Nat} (h : SeenInv store seen) :
    seen.length ≤ store.length := by
  classical
  have h1 : seen.toFinset.card = seen.length := List.toFinset_card_of_nodup h.1
  have h2 : seen.toFinset ⊆ Finset.range store.length := by
    intro a ha
    simp only [List.mem_toFinset] at ha
    simpa using h.2 a ha
  have := Finset.card_le_card h2
  simpa [h1] using this

theorem jsGetField_wf {store : Store} (hw : wfStoreB store = true) (v : JVal) (k : String) :
    wfValB store.length (jsGetField store v k) = true := by
  unfold jsGetField
  match v with
  | .null | .undefined | .bool _ | .num _ | .str _ => rfl
  | .ref a =>
    match hnode : store[a]? with
    | none => simp [hnode, wfValB]
    | some (.arr es) => simp [hnode, wfValB]
    | some .func => simp [hnode, wfValB]
    | some (.obj fs) =>
      simp only [hnode]
      match hfind : fs.find? (fun p => p.1 == k) with
      | none => simp [hfind, wfValB]
      | some p =>
        simp only [hfind, Option.map_some, Option.getD_some]
        have hmem : HNode.obj fs ∈ store := List.getElem?_mem hnode
        have hnode_wf : wfNodeB store.length (HNode.obj fs) = true := by
          have := List.all_eq_true.mp hw _ hmem
          exact this
        have hp : p ∈ fs := List.mem_of_find?_eq_some hfind
        exact List.all_eq_true.mp hnode_wf _ hp

theorem serFieldsWith_ok (store : Store) (t : Nat)
    (f : List Nat → String → JVal → Except Unit (Option SVal × List Nat))
    (hf : ∀ seen name v, SeenInv store seen → wfValB store.length v = true →
      t ≤ seen.length →
      ∃ r ext, f seen name v = .ok (r, seen ++ ext) ∧ SeenInv store (seen ++ ext)) :
    ∀ fs seen, SeenInv store seen → (∀ p ∈ fs, wfValB store.length p.2 = true) →
      t ≤ seen.length →
      ∃ out ext, serFieldsWith f seen fs = .ok (out, seen ++ ext) ∧
        SeenInv store (seen ++ ext) := by
  intro fs
  induction fs with
  | nil =>
    intro seen h1 _ _
    exact ⟨[], [], by simp [serFieldsWith], by simpa using h1⟩
  | cons p rest ih =>
    intro seen hinv hwf hlen
    obtain ⟨k, v⟩ := p
    obtain ⟨r, ext, hEq, hInv1⟩ := hf seen k v hinv (hwf (k, v) (by simp)) hlen
    have hlen1 : t ≤ (seen ++ ext).length := by
      simp only [List.length_append]; omega
    obtain ⟨out2, ext2, hEq2, hInv2⟩ :=
      ih (seen ++ ext) hInv1 (fun q hq => hwf q (by simp [hq])) hlen1
    cases r with
    | none =>
      refine ⟨out2, ext ++ ext2, ?_, ?_⟩
      · simp only [serFieldsWith, hEq, hEq2, bind, Except.bind, List.append_assoc, List.nil_append, List.singleton_append]
      · simpa [List.append_assoc] using hInv2
    | some s =>
      refine ⟨(k, s) :: out2, ext ++ ext2, ?_, ?_⟩
      · simp only [serFieldsWith, hEq, hEq2, bind, Except.bind, List.append_assoc, List.nil_append, List.singleton_append]
      · simpa [List.append_assoc] using hInv2

theorem serElemsWith_ok (store : Store) (t : Nat)
    (f : List Nat → String → JVal → Except Unit (Option SVal × List Nat))
    (hf : ∀ seen name v, SeenInv store seen → wfValB store.length v = true →
      t ≤ seen.length →
      ∃ r ext, f seen name v = .ok (r, seen ++ ext) ∧ SeenInv store (seen ++ ext)) :
    ∀ es i seen, SeenInv store seen → (∀ v ∈ es, wfValB store.length v = true) →
      t ≤ seen.length →
      ∃ out ext, serElemsWith f seen i es = .ok (out, seen ++ ext) ∧
        SeenInv store (seen ++ ext) := by
  intro es
  induction es with
  | nil =>
    intro i seen h1 _ _
    exact ⟨[], [], by simp [serElemsWith], by simpa using h1⟩
  | cons v rest ih =>
    intro i seen hinv hwf hlen
    obtain ⟨r, ext, hEq, hInv1⟩ := hf seen (toString i) v hinv (hwf v (by simp)) hlen
    have hlen1 : t ≤ (seen ++ ext).length := by
      simp only [List.length_append]; omega
    obtain ⟨out2, ext2, hEq2, hInv2⟩ :=
      ih (i + 1) (seen ++ ext) hInv1 (fun q hq => hwf q (by simp [hq])) hlen1
    refine ⟨r.getD .null :: out2, ext ++ ext2, ?_, ?_⟩
    · simp only [serElemsWith, hEq, hEq2, bind, Except.bind, List.append_assoc]
    · simpa [List.append_assoc] using hInv2

theorem storeNode_wf {store : Store} (hw : wfStoreB store = true) {a : Nat} {node : HNode}
    (h : store[a]? = some node) : wfNodeB store.length node = true :=
  List.all_eq_true.mp hw _ (List.getElem?_mem h)

theorem pushSeen_ext (store : Store) (seen : List Nat) (v : JVal) (hinv : SeenInv store seen)
    (hwv : wfValB store.length v = true) (hns : isSeenB seen v = false) :
    ∃ ext0, pushSeen seen v = seen ++ ext0 ∧ SeenInv store (seen ++ ext0) ∧
      seen.length ≤ (seen ++ ext0).length := by
  cases v with
  | ref a =>
    refine ⟨[a], rfl, ⟨?_, ?_⟩, by simp⟩
    · have ha : a ∉ seen := by simpa [isSeenB] using hns
      simp [List.nodup_append, hinv.1, ha]
    · intro b hb
      rcases List.mem_append.mp hb with h | h
      · exact hinv.2 b h
      · simp only [List.mem_singleton] at h
        subst h
        simpa [wfValB] using hwv
  | null => exact ⟨[], by simp [pushSeen], by simpa using hinv, by simp⟩
  | undefined => exact ⟨[], by simp [pushSeen], by simpa using hinv, by simp⟩
  | bool b => exact ⟨[], by simp [pushSeen], by simpa using hinv, by simp⟩
  | num n => exact ⟨[], by simp [pushSeen], by simpa using hinv, by simp⟩
  | str s => exact ⟨[], by simp [pushSeen], by simpa using hinv, by simp⟩

theorem truthyB_get_ref {store : Store} {v : JVal} {k : String}
    (h : truthyB (jsGetField store v k) = true) :
    ∃ a fs, v = .ref a ∧ store[a]? = some (.obj fs) := by
  cases v with
  | ref a =>
    match hnode : store[a]? with
    | some (.obj fs) => exact ⟨a, fs, rfl, hnode⟩
    | some (.arr es) => simp [jsGetField, hnode, truthyB] at h
    | some .func => simp [jsGetField, hnode, truthyB] at h
    | none => simp [jsGetField, hnode, truthyB] at h
  | null => simp [jsGetField, truthyB] at h
  | undefined => simp [jsGetField, truthyB] at h
  | bool b => simp [jsGetField, truthyB] at h
  | num n => simp [jsGetField, truthyB] at h
  | str s => simp [jsGetField, truthyB] at h

theorem longArray_ref {store : Store} {cfg : SConfig} {v : JVal}
    (h : longArray store cfg v = true) :
    ∃ a es, v = .ref a ∧ store[a]? = some (.arr es) ∧ cfg.maxArrayLength < es.length := by
  cases v with
  | ref a =>
    match hnode : store[a]? with
    | some (.arr es) =>
      refine ⟨a, es, rfl, hnode, ?_⟩
      simpa [longArray, hnode] using h
    | some (.obj fs) => simp [longArray, hnode] at h
    | some .func => simp [longArray, hnode] at h
    | none => simp [longArray, hnode] at h
  | null => simp [longArray] at h
  | undefined => simp [longArray] at h
  | bool b => simp [longArray] at h
  | num n => simp [longArray] at h
  | str s => simp [longArray] at h

theorem seenInv_push {store : Store} {seen : List Nat} {a : Nat} (hinv : SeenInv store seen)
    (ha : a ∉ seen) (haw : a < store.length) : SeenInv store (seen ++ [a]) := by
  refine ⟨by simp [List.nodup_append, hinv.1, ha], ?_⟩
  intro b hb
  rcases List.mem_append.mp hb with h | h
  · exact hinv.2 b h
  · simp only [List.mem_singleton] at h
    subst h
    exact haw

theorem serProp_total (cfg : SConfig) (store : Store) (hw : wfStoreB store = true) :
    ∀ fuel seen name v, SeenInv store seen → wfValB store.length v = true →
      store.length + 1 ≤ fuel + seen.length →
      ∃ r ext, serProp cfg store fuel seen name v = .ok (r, seen ++ ext) ∧
        SeenInv store (seen ++ ext) ∧ (r = none → NoneShape store v) := by
  intro fuel
  induction fuel with
  | zero =>
    intro seen name v hinv hwv hle
    exfalso
    have := SeenInv.length_le hinv
    omega
  | succ fuel ih =>
    intro seen name v hinv hwv hle
    have hf : ∀ seen' name' v', SeenInv store seen' → wfValB store.length v' = true →
        store.length + 1 - fuel ≤ seen'.length →
        ∃ r ext, serProp cfg store fuel seen' name' v' = .ok (r, seen' ++ ext) ∧
          SeenInv store (seen' ++ ext) := by
      intro seen' name' v' h1 h2 h3
      obtain ⟨r, ext, hE, hI, _⟩ := ih seen' name' v' h1 h2 (by omega)
      exact ⟨r, ext, hE, hI⟩
    by_cases hseen : isSeenB seen v = true
    · refine ⟨some (.str "[Circular]"), [], ?_, by simpa using hinv, fun h => by simp at h⟩
      simp only [serProp]
      rw [if_pos hseen, List.append_nil]
    · have hseen' : isSeenB seen v = false := by simpa using hseen
      obtain ⟨ext0, hpush, hinv0, hlen0⟩ := pushSeen_ext store seen v hinv hwv hseen'
      by_cases hrem : cfg.removeFields.contains name = true
      · refine ⟨some (.str "<removed>"), ext0, ?_, hinv0, fun h => by simp at h⟩
        simp only [serProp]
        rw [if_neg hseen, if_pos hrem, hpush]
      · by_cases hreq :
            (name == "req" && truthyB v && truthyB (jsGetField store v "connection")) = true
        · have hconn : truthyB (jsGetField store v "connection") = true := by
            simp only [Bool.and_eq_true] at hreq
            exact hreq.2
          obtain ⟨a, fs, rfl, hnode⟩ := truthyB_get_ref hconn
          have ha : a ∉ seen := by simpa [isSeenB] using hseen'
          have haw : a < store.length := by simpa [wfValB] using hwv
          have hinv1 : SeenInv store (seen ++ [a]) := seenInv_push hinv ha haw
          have hlen1 : store.length + 1 - fuel ≤ (seen ++ [a]).length := by
            simp only [List.length_append, List.length_singleton]
            omega
          have hfwf : ∀ p ∈ reqProjection store (.ref a), wfValB store.length p.2 = true := by
            intro p hp
            simp only [reqProjection, List.mem_cons, List.mem_singleton,
              List.not_mem_nil, or_false] at hp
            rcases hp with rfl | rfl | rfl | rfl | rfl <;> simpa using jsGetField_wf hw _ _
          obtain ⟨out, ext1, hEq1, hInv1⟩ := serFieldsWith_ok store (store.length + 1 - fuel)
            (serProp cfg store fuel) hf (reqProjection store (.ref a)) (seen ++ [a]) hinv1 hfwf hlen1
          refine ⟨some (.obj out), [a] ++ ext1, ?_, ?_, fun h => by simp at h⟩
          · simp only [serProp]
            rw [if_neg hseen, if_neg hrem, if_pos hreq]
            simp only [pushSeen]
            rw [hEq1, ← List.append_assoc]
          · simpa [List.append_assoc] using hInv1
        · by_cases hres :
              (name == "res" && truthyB v && truthyB (jsGetField store v "statusCode")) = true
          · have hsc : truthyB (jsGetField store v "statusCode") = true := by
              simp only [Bool.and_eq_true] at hres
              exact hres.2
            obtain ⟨a, fs, rfl, hnode⟩ := truthyB_get_ref hsc
            have ha : a ∉ seen := by simpa [isSeenB] using hseen'
            have haw : a < store.length := by simpa [wfValB] using hwv
            have hinv1 : SeenInv store (seen ++ [a]) := seenInv_push hinv ha haw
            have hlen1 : store.length + 1 - fuel ≤ (seen ++ [a]).length := by
              simp only [List.length_append, List.length_singleton]
              omega
            have hfwf : ∀ p ∈ resProjection store (.ref a), wfValB store.length p.2 = true := by
              intro p hp
              simp only [resProjection, List.mem_cons, List.mem_singleton,
                List.not_mem_nil, or_false] at hp
              rcases hp with rfl | rfl <;> simpa using jsGetField_wf hw _ _
            obtain ⟨out, ext1, hEq1, hInv1⟩ := serFieldsWith_ok store (store.length + 1 - fuel)
              (serProp cfg store fuel) hf (resProjection store (.ref a)) (seen ++ [a]) hinv1 hfwf hlen1
            refine ⟨some (.obj out), [a] ++ ext1, ?_, ?_, fun h => by simp at h⟩
            · simp only [serProp]
              rw [if_neg hseen, if_neg hrem, if_neg hreq, if_pos hres]
              simp only [pushSeen]
              rw [hEq1, ← List.append_assoc]
            · simpa [List.append_assoc] using hInv1
          · by_cases hlong : longArray store cfg v = true
            · refine ⟨some (.str ("Array(" ++ toString (arrLen store v) ++ ")")), ext0, ?_,
                hinv0, fun h => by simp at h⟩
              simp only [serProp]
              rw [if_neg hseen, if_neg hrem, if_neg hreq, if_neg hres, if_pos hlong, hpush]
            · cases v with
              | null =>
                refine ⟨some .null, [], ?_, by simpa using hinv, fun h => by simp at h⟩
                simp only [serProp]
                rw [if_neg hseen, if_neg hrem, if_neg hreq, if_neg hres, if_neg hlong]
                simp [pushSeen]
              | undefined =>
                refine ⟨none, [], ?_, by simpa using hinv, fun _ => Or.inl rfl⟩
                simp only [serProp]
                rw [if_neg hseen, if_neg hrem, if_neg hreq, if_neg hres, if_neg hlong]
                simp [pushSeen]
              | bool b =>
                refine ⟨some (.bool b), [], ?_, by simpa using hinv, fun h => by simp at h⟩
                simp only [serProp]
                rw [if_neg hseen, if_neg hrem, if_neg hreq, if_neg hres, if_neg hlong]
                simp [pushSeen]
              | num n =>
                refine ⟨some (.num n), [], ?_, by simpa using hinv, fun h => by simp at h⟩
                simp only [serProp]
                rw [if_neg hseen, if_neg hrem, if_neg hreq, if_neg hres, if_neg hlong]
                simp [pushSeen]
              | str s =>
                refine ⟨some (.str s), [], ?_, by simpa using hinv, fun h => by simp at h⟩
                simp only [serProp]
                rw [if_neg hseen, if_neg hrem, if_neg hreq, if_neg hres, if_neg hlong]
                simp [pushSeen]
              | ref a =>
                have ha : a ∉ seen := by simpa [isSeenB] using hseen'
                have haw : a < store.length := by simpa [wfValB] using hwv
                have hinv1 : SeenInv store (seen ++ [a]) := seenInv_push hinv ha haw
                have hlen1 : store.length + 1 - fuel ≤ (seen ++ [a]).length := by
                  simp only [List.length_append, List.length_singleton]
                  omega
                match hnode : store[a]? with
                | some (.obj fs) =>
                  have hfwf : ∀ p ∈ fs, wfValB store.length p.2 = true := by
                    intro p hp
                    have := storeNode_wf hw hnode
                    exact List.all_eq_true.mp this _ hp
                  obtain ⟨out, ext1, hEq1, hInv1⟩ :=
                    serFieldsWith_ok store (store.length + 1 - fuel)
                      (serProp cfg store fuel) hf fs (seen ++ [a]) hinv1 hfwf hlen1
                  refine ⟨some (.obj out), [a] ++ ext1, ?_, ?_, fun h => by simp at h⟩
                  · simp only [serProp]
                    rw [if_neg hseen, if_neg hrem, if_neg hreq, if_neg hres, if_neg hlong, hnode]
                    simp only [pushSeen]
                    rw [hEq1, ← List.append_assoc]
                  · simpa [List.append_assoc] using hInv1
                | some (.arr es) =>
                  have hewf : ∀ w ∈ es, wfValB store.length w = true := by
                    intro w hp
                    have := storeNode_wf hw hnode
                    exact List.all_eq_true.mp this _ hp
                  obtain ⟨out, ext1, hEq1, hInv1⟩ :=
                    serElemsWith_ok store (store.length + 1 - fuel)
                      (serProp cfg store fuel) hf es 0 (seen ++ [a]) hinv1 hewf hlen1
                  refine ⟨some (.arr out), [a] ++ ext1, ?_, ?_, fun h => by simp at h⟩
                  · simp only [serProp]
                    rw [if_neg hseen, if_neg hrem, if_neg hreq, if_neg hres, if_neg hlong, hnode]
                    simp only [pushSeen]
                    rw [hEq1, ← List.append_assoc]
                  · simpa [List.append_assoc] using hInv1
                | some .func =>
                  refine ⟨none, [a], ?_, hinv1, fun _ => Or.inr ⟨a, rfl, Or.inl hnode⟩⟩
                  simp only [serProp]
                  rw [if_neg hseen, if_neg hrem, if_neg hreq, if_neg hres, if_neg hlong, hnode]
                  simp [pushSeen]
                | none =>
                  refine ⟨none, [a], ?_, hinv1, fun _ => Or.inr ⟨a, rfl, Or.inr hnode⟩⟩
                  simp only [serProp]
                  rw [if_neg hseen, if_neg hrem, if_neg hreq, if_neg hres, if_neg hlong, hnode]
                  simp [pushSeen]

theorem pushSeen_ext0 (seen : List Nat) (v : JVal) : ∃ ext, pushSeen seen v = seen ++ ext := by
  cases v with
  | ref a => exact ⟨[a], rfl⟩
  | null => exact ⟨[], by simp [pushSeen]⟩
  | undefined => exact ⟨[], by simp [pushSeen]⟩
  | bool b => exact ⟨[], by simp [pushSeen]⟩
  | num n => exact ⟨[], by simp [pushSeen]⟩
  | str s => exact ⟨[], by simp [pushSeen]⟩

theorem serFieldsWith_mono
    (f : List Nat → String → JVal → Except Unit (Option SVal × List Nat))
    (hfm : ∀ seen name v r seen2, f seen name v = .ok (r, seen2) → ∃ ext, seen2 = seen ++ ext) :
    ∀ fs seen out seen2, serFieldsWith f seen fs = .ok (out, seen2) →
      ∃ ext, seen2 = seen ++ ext := by
  intro fs
  induction fs with
  | nil =>
    intro seen out seen2 h
    simp only [serFieldsWith] at h
    injection h with h
    exact ⟨[], by simp [(Prod.mk.injEq _ _ _ _).mp h |>.2.symm]⟩
  | cons p rest ih =>
    intro seen out seen2 h
    obtain ⟨k, v⟩ := p
    simp only [serFieldsWith, bind, Except.bind] at h
    cases hE : f seen k v with
    | error e => rw [hE] at h; exact absurd h (by simp)
    | ok rs =>
      obtain ⟨r, seen1⟩ := rs
      rw [hE] at h
      dsimp only at h
      cases hE2 : serFieldsWith f seen1 rest with
      | error e => rw [hE2] at h; exact absurd h (by simp)
      | ok rs2 =>
        obtain ⟨out2, seen2'⟩ := rs2
        rw [hE2] at h
        injection h with h
        obtain ⟨ext1, h1⟩ := hfm _ _ _ _ _ hE
        obtain ⟨ext2, h2⟩ := ih _ _ _ hE2
        have hs : seen2 = seen2' := ((Prod.mk.injEq _ _ _ _).mp h).2.symm
        exact ⟨ext1 ++ ext2, by rw [hs, h2, h1, List.append_assoc]⟩

theorem serElemsWith_mono
    (f : List Nat → String → JVal → Except Unit (Option SVal × List Nat))
    (hfm : ∀ seen name v r seen2, f seen name v = .ok (r, seen2) → ∃ ext, seen2 = seen ++ ext) :
    ∀ es i seen out seen2, serElemsWith f seen i es = .ok (out, seen2) →
      ∃ ext, seen2 = seen ++ ext := by
  intro es
  induction es with
  | nil =>
    intro i seen out seen2 h
    simp only [serElemsWith] at h
    injection h with h
    exact ⟨[], by simp [(Prod.mk.injEq _ _ _ _).mp h |>.2.symm]⟩
  | cons v rest ih =>
    intro i seen out seen2 h
    simp only [serElemsWith, bind, Except.bind] at h
    cases hE : f seen (toString i) v with
    | error e => rw [hE] at h; exact absurd h (by simp)
    | ok rs =>
      obtain ⟨r, seen1⟩ := rs
      rw [hE] at h
      dsimp only at h
      cases hE2 : serElemsWith f seen1 (i + 1) rest with
      | error e => rw [hE2] at h; exact absurd h (by simp)
      | ok rs2 =>
        obtain ⟨out2, seen2'⟩ := rs2
        rw [hE2] at h
        injection h with h
        obtain ⟨ext1, h1⟩ := hfm _ _ _ _ _ hE
        obtain ⟨ext2, h2⟩ := ih _ _ _ _ hE2
        have hs : seen2 = seen2' := ((Prod.mk.injEq _ _ _ _).mp h).2.symm
        exact ⟨ext1 ++ ext2, by rw [hs, h2, h1, List.append_assoc]⟩

/-- The `seen` array of the replacer only ever grows during a
serialization pass: it is never cleared or popped. -/
theorem serProp_seen_mono (cfg : SConfig) (store : Store) :
    ∀ fuel seen name v r seen2, serProp cfg store fuel seen name v = .ok (r, seen2) →
      ∃ ext, seen2 = seen ++ ext := by
  intro fuel
  induction fuel with
  | zero =>
    intro seen name v r seen2 h
    exact absurd h (by simp [serProp])
  | succ fuel ih =>
    intro seen name v r seen2 h
    simp only [serProp] at h
    split at h
    · injection h with h
      exact ⟨[], by simp [(Prod.mk.injEq _ _ _ _).mp h |>.2.symm]⟩
    · split at h
      · injection h with h
        have hs : seen2 = pushSeen seen v := ((Prod.mk.injEq _ _ _ _).mp h).2.symm
        obtain ⟨ext, he⟩ := pushSeen_ext0 seen v
        exact ⟨ext, by rw [hs, he]⟩
      · split at h
        · split at h
          · exact absurd h (by simp)
          · rename_i out seen2' heq
            injection h with h
            have hs : seen2 = seen2' := ((Prod.mk.injEq _ _ _ _).mp h).2.symm
            obtain ⟨ext1, h1⟩ := serFieldsWith_mono _ ih _ _ _ _ heq
            obtain ⟨ext0, h0⟩ := pushSeen_ext0 seen v
            exact ⟨ext0 ++ ext1, by rw [hs, h1, h0, List.append_assoc]⟩
        · split at h
          · split at h
            · exact absurd h (by simp)
            · rename_i out seen2' heq
              injection h with h
              have hs : seen2 = seen2' := ((Prod.mk.injEq _ _ _ _).mp h).2.symm
              obtain ⟨ext1, h1⟩ := serFieldsWith_mono _ ih _ _ _ _ heq
              obtain ⟨ext0, h0⟩ := pushSeen_ext0 seen v
              exact ⟨ext0 ++ ext1, by rw [hs, h1, h0, List.append_assoc]⟩
          · split at h
            · injection h with h
              have hs : seen2 = pushSeen seen v := ((Prod.mk.injEq _ _ _ _).mp h).2.symm
              obtain ⟨ext, he⟩ := pushSeen_ext0 seen v
              exact ⟨ext, by rw [hs, he]⟩
            · split at h
              all_goals try (
                injection h with h
                have hs : seen2 = pushSeen seen _ := ((Prod.mk.injEq _ _ _ _).mp h).2.symm
                obtain ⟨ext, he⟩ := pushSeen_ext0 seen _
                exact ⟨ext, by rw [hs, he]⟩)
              -- remaining goal: the ref case, a match on the heap lookup
              · split at h
                · split at h
                  · exact absurd h (by simp)
                  · rename_i out seen2' heq
                    injection h with h
                    have hs : seen2 = seen2' := ((Prod.mk.injEq _ _ _ _).mp h).2.symm
                    obtain ⟨ext1, h1⟩ := serFieldsWith_mono _ ih _ _ _ _ heq
                    obtain ⟨ext0, h0⟩ := pushSeen_ext0 seen _
                    exact ⟨ext0 ++ ext1, by rw [hs, h1, h0, List.append_assoc]⟩
                · split at h
                  · exact absurd h (by simp)
                  · rename_i out seen2' heq
                    injection h with h
                    have hs : seen2 = seen2' := ((Prod.mk.injEq _ _ _ _).mp h).2.symm
                    obtain ⟨ext1, h1⟩ := serElemsWith_mono _ ih _ _ _ _ _ heq
                    obtain ⟨ext0, h0⟩ := pushSeen_ext0 seen _
                    exact ⟨ext0 ++ ext1, by rw [hs, h1, h0, List.append_assoc]⟩
                · injection h with h
                  have hs : seen2 = pushSeen seen _ := ((Prod.mk.injEq _ _ _ _).mp h).2.symm
                  obtain ⟨ext, he⟩ := pushSeen_ext0 seen _
                  exact ⟨ext, by rw [hs, he]⟩
                · injection h with h
                  have hs : seen2 = pushSeen seen _ := ((Prod.mk.injEq _ _ _ _).mp h).2.symm
                  obtain ⟨ext, he⟩ := pushSeen_ext0 seen _
                  exact ⟨ext, by rw [hs, he]⟩

/-- Top-level shapes on which `JSON.stringify` yields the absent value, so
`JSON.parse` raises (only function objects in the JS value space; the
model also sends dangling references there). -/
def badTopB (store : Store) : JVal → Bool
  | .ref a =>
    match store[a]? with
    | some .func => true
    | none => true
    | _ => false
  | _ => false

theorem sanitize_total (cfg : SConfig) (store : Store) (hw : wfStoreB store = true)
    (v : JVal) (hwv : wfValB store.length v = true) (hb : badTopB store v = false) :
    ∃ s, _sanitizeObject cfg store v = .ok s := by
  by_cases hu : v = .undefined
  · exact ⟨none, by simp [_sanitizeObject, hu]⟩
  · obtain ⟨r, ext, hEq, hInv, hnone⟩ := serProp_total cfg store hw (store.length + 1) [] "" v
      ⟨List.nodup_nil, by simp⟩ hwv (by simp)
    cases r with
    | some s => exact ⟨some s, by simp [_sanitizeObject, hu, hEq]⟩
    | none =>
      exfalso
      rcases hnone rfl with h | ⟨a, rfl, h⟩
      · exact hu h
      · rcases h with h | h <;> simp [badTopB, h] at hb

theorem serializeObject_ok {cfg : SConfig} {store : Store} {v : JVal}
    (h : ∃ t, _sanitizeObject cfg store v = .ok t) :
    ∃ s, _serializeObject cfg store v = .ok s := by
  obtain ⟨t, ht⟩ := h
  cases t with
  | none => exact ⟨"undefined", by simp [_serializeObject, ht]⟩
  | some s => exact ⟨inspectS cfg.depth s, by simp [_serializeObject, ht]⟩

theorem wfValB_mono {n n' : Nat} (h : n ≤ n') {v : JVal} (hv : wfValB n v = true) :
    wfValB n' v = true := by
  cases v <;> simp [wfValB] at hv ⊢ <;> omega

theorem wfNodeB_mono {n n' : Nat} (h : n ≤ n') {node : HNode} (hv : wfNodeB n node = true) :
    wfNodeB n' node = true := by
  cases node with
  | obj fs =>
    simp only [wfNodeB, List.all_eq_true] at hv ⊢
    exact fun p hp => wfValB_mono h (hv p hp)
  | arr es =>
    simp only [wfNodeB, List.all_eq_true] at hv ⊢
    exact fun v hv' => wfValB_mono h (hv v hv')
  | func => rfl

theorem wfStoreB_snoc_obj {store : Store} {fields : List (String × JVal)}
    (hw : wfStoreB store = true)
    (hf : ∀ p ∈ fields, wfValB store.length p.2 = true) :
    wfStoreB (store ++ [HNode.obj fields]) = true := by
  simp only [wfStoreB, List.all_eq_true, List.mem_append, List.mem_singleton] at hw ⊢
  intro n hn
  have hlen : store.length ≤ (store ++ [HNode.obj fields]).length := by simp
  rcases hn with hn | rfl
  · exact wfNodeB_mono (by simpa using hlen) (hw n hn)
  · simp only [wfNodeB, List.all_eq_true]
    exact fun p hp => wfValB_mono (by simpa using hlen) (hf p hp)

theorem objSet_values {P : JVal → Prop} {acc : List (String × JVal)} {k : String} {v : JVal}
    (hacc : ∀ p ∈ acc, P p.2) (hv : P v) : ∀ p ∈ objSet acc k v, P p.2 := by
  intro p hp
  simp only [objSet] at hp
  split at hp
  · rcases List.mem_map.mp hp with ⟨q, hq, hqe⟩
    by_cases hk : q.1 == k
    · simp only [hk, if_pos] at hqe
      rw [← hqe]
      exact hv
    · simp only [hk] at hqe
      simp only [Bool.false_eq_true, if_false] at hqe
      rw [← hqe]
      exact hacc q hq
  · rcases List.mem_append.mp hp with hq | hq
    · exact hacc p hq
    · simp only [List.mem_singleton] at hq
      subst hq
      exact hv

theorem combineGo_values {P : JVal → Prop} (params : List String) :
    ∀ rest : List JVal, ∀ i acc, (∀ p ∈ acc, P p.2) → (∀ v ∈ rest, P v) →
      ∀ p ∈ combineGo params i rest acc, P p.2 := by
  intro rest
  induction rest with
  | nil => intro i acc hacc _ p hp; exact hacc p hp
  | cons a t ih =>
    intro i acc hacc hrest p hp
    simp only [combineGo] at hp
    exact ih (i + 1) _ (objSet_values hacc (hrest a (by simp)))
      (fun v hv => hrest v (by simp [hv])) p hp

theorem combineObject_values {params : List String} {args : List JVal} :
    ∀ p ∈ _combineObject params args, p.2 ∈ args :=
  combineGo_values params args 0 [] (by simp) (fun v hv => hv)

/-- The ENTER-record serialization never fails: the freshly allocated
named-argument object is a plain object, so its stringify result is
always present. -/
theorem serializeNamedArgs_ok (cfg : SConfig) (store : Store) (params : List String)
    (args : List JVal) (hw : wfStoreB store = true)
    (hargs : ∀ v ∈ args, wfValB store.length v = true) :
    ∃ s, serializeNamedArgs cfg store params args = .ok s := by
  have hfields : ∀ p ∈ _combineObject params args, wfValB store.length p.2 = true :=
    fun p hp => hargs p.2 (combineObject_values p hp)
  have hw' : wfStoreB (store ++ [HNode.obj (_combineObject params args)]) = true :=
    wfStoreB_snoc_obj hw hfields
  have hlook : (store ++ [HNode.obj (_combineObject params args)])[store.length]? =
      some (HNode.obj (_combineObject params args)) :=
    List.getElem?_concat_length _ _
  have hwv : wfValB (store ++ [HNode.obj (_combineObject params args)]).length
      (JVal.ref store.length) = true := by
    simp [wfValB]
  have hb : badTopB (store ++ [HNode.obj (_combineObject params args)])
      (JVal.ref store.length) = false := by
    simp [badTopB, hlook]
  exact serializeObject_ok (sanitize_total _ _ hw' _ hwv hb)

/-- With no try/catch in `_sanitizeObject`, a top-level function value
makes `JSON.stringify` produce the absent value and `JSON.parse` raise:
the serializer itself raises. -/
theorem sanitize_raises_on_func (cfg : SConfig) (store : Store) (a : Nat)
    (hnode : store[a]? = some .func) (hempty : cfg.removeFields.contains "" = false) :
    _sanitizeObject cfg store (.ref a) = .error () := by
  have h1 : serProp cfg store (store.length + 1) [] "" (.ref a) = .ok (none, [a]) := by
    simp only [serProp]
    rw [if_neg (by simp [isSeenB]), if_neg (by simp only [hempty]; simp)]
    simp [jsGetField, hnode, truthyB, longArray, pushSeen]
  simp [_sanitizeObject, h1]

/-- JS property lookup on the named mapping, `none` when the key is
absent. -/
def lookupKey (o : List (String × JVal)) (k : String) : Option JVal :=
  (o.find? (fun p => p.1 == k)).map (fun p => p.2)

/-- The value written last to key `k` by `_combineObject`'s loop over
`rest` starting at iteration `i` (later writes overwrite earlier ones). -/
def lastAssign (params : List String) : Nat → List JVal → String → Option JVal
  | _, [], _ => none
  | i, a :: rest, k =>
    (lastAssign params (i + 1) rest k).or (if keyAt params i = k then some a else none)

theorem find?_objSet_hit (o : List (String × JVal)) (k : String) (v : JVal)
    (h : o.any (fun p => p.1 == k) = true) :
    (o.map (fun p => if p.1 == k then (k, v) else p)).find? (fun p => p.1 == k) = some (k, v) := by
  induction o with
  | nil => simp at h
  | cons p t ih =>
    by_cases hp : p.1 == k
    · simp [List.find?, hp]
    · simp only [List.any_cons, hp, Bool.false_or] at h
      simp only [List.map_cons, hp, Bool.false_eq_true, if_false, List.find?, hp]
      exact ih h

theorem find?_objSet_miss (o : List (String × JVal)) (k k' : String) (v : JVal)
    (hne : k' ≠ k) :
    (o.map (fun p => if p.1 == k then (k, v) else p)).find? (fun p => p.1 == k') =
      o.find? (fun p => p.1 == k') := by
  induction o with
  | nil => rfl
  | cons p t ih =>
    by_cases hp : p.1 == k
    · have hpk : p.1 = k := by simpa using hp
      have h1 : (k == k') = false := by simp [beq_eq_false_iff_ne, Ne.symm hne]
      have h2 : (p.1 == k') = false := by simp [beq_eq_false_iff_ne, hpk, Ne.symm hne]
      simp only [List.map_cons, hp, if_pos, List.find?, h1, h2]
      exact ih
    · simp only [List.map_cons, hp, Bool.false_eq_true, if_false, List.find?]
      cases hq : (p.1 == k') with
      | true => rfl
      | false => exact ih

theorem lookupKey_objSet (o : List (String × JVal)) (k k' : String) (v : JVal) :
    lookupKey (objSet o k v) k' = if k' = k then some v else lookupKey o k' := by
  unfold objSet lookupKey
  by_cases hany : o.any (fun p => p.1 == k) = true
  · rw [if_pos hany]
    by_cases hk : k' = k
    · subst hk
      rw [find?_objSet_hit o k' v hany, if_pos rfl]
      rfl
    · rw [find?_objSet_miss o k k' v hk, if_neg hk]
  · rw [if_neg hany]
    have hnone : o.find? (fun p => p.1 == k) = none := by
      rw [List.find?_eq_none]
      intro p hp
      simp only [Bool.not_eq_true]
      by_contra hc
      exact hany (List.any_eq_true.mpr ⟨p, hp, by simpa using hc⟩)
    by_cases hk : k' = k
    · subst hk
      rw [if_pos rfl, List.find?_append, hnone]
      simp [List.find?]
    · rw [if_neg hk, List.find?_append]
      have hbe : (k == k') = false := by
        simp [beq_eq_false_iff_ne, Ne.symm hk]
      have h2 : ([(k, v)] : List (String × JVal)).find? (fun p => p.1 == k') = none := by
        simp [List.find?, hbe]
      rw [h2]
      cases o.find? (fun p => p.1 == k') <;> rfl

theorem keyAt_lt {params : List String} {i : Nat} (h : i < params.length) :
    keyAt params i = params.get ⟨i, h⟩ := by
  simp [keyAt, List.getD_eq_getElem?_getD, List.getElem?_eq_getElem h]

theorem keyAt_ge {params : List String} {i : Nat} (h : params.length ≤ i) :
    keyAt params i = "undefined" := by
  simp [keyAt, List.getD_eq_getElem?_getD, List.getElem?_eq_none_iff.mpr h]

theorem combineGo_lookup (params : List String) :
    ∀ (rest : List JVal) (i : Nat) (acc : List (String × JVal)) (k : String),
      lookupKey (combineGo params i rest acc) k =
        (lastAssign params i rest k).or (lookupKey acc k) := by
  intro rest
  induction rest with
  | nil => intro i acc k; simp [combineGo, lastAssign]
  | cons a t ih =>
    intro i acc k
    simp only [combineGo, lastAssign]
    rw [ih, lookupKey_objSet]
    by_cases hk : k = keyAt params i
    · rw [if_pos hk, if_pos hk.symm]
      cases lastAssign params (i + 1) t k <;> simp [Option.or]
    · rw [if_neg hk, if_neg (fun h => hk h.symm)]
      cases lastAssign params (i + 1) t k <;> simp [Option.or]

theorem lastAssign_none (params : List String) :
    ∀ (rest : List JVal) (i : Nat) (k : String),
      (∀ j, j < rest.length → keyAt params (i + j) ≠ k) →
      lastAssign params i rest k = none := by
  intro rest
  induction rest with
  | nil => intro i k _; rfl
  | cons a t ih =>
    intro i k h
    simp only [lastAssign]
    have h1 : lastAssign params (i + 1) t k = none := by
      refine ih (i + 1) k (fun j hj => ?_)
      rw [show i + 1 + j = i + (j + 1) by omega]
      exact h (j + 1) (by simp only [List.length_cons]; omega)
    have h2 : keyAt params i ≠ k := by simpa using h 0 (by simp)
    rw [h1, if_neg h2]
    rfl

theorem lastAssign_pos (params : List String) (hu : "undefined" ∉ params) (hnd : params.Nodup) :
    ∀ (rest : List JVal) (i0 i : Nat) (h1 : i < params.length), i0 ≤ i →
      i < i0 + rest.length →
      lastAssign params i0 rest (params.get ⟨i, h1⟩) = rest[i - i0]? := by
  intro rest
  induction rest with
  | nil =>
    intro i0 i h1 hge hlt
    exfalso
    simp only [List.length_nil] at hlt
    omega
  | cons a t ih =>
    intro i0 i h1 hge hlt
    simp only [lastAssign]
    by_cases hii : i = i0
    · subst hii
      rw [lastAssign_none params t (i + 1) _ ?_, if_pos ?_]
      · simp
      · rw [keyAt_lt h1]
      · intro j hj
        by_cases hjl : i + 1 + j < params.length
        · rw [keyAt_lt hjl]
          intro hc
          have := (List.Nodup.get_inj_iff hnd).mp hc
          simp only [Fin.mk.injEq] at this
          omega
        · rw [keyAt_ge (by omega)]
          intro hc
          exact hu (hc ▸ List.get_mem params _ _)
    · have hgt : i0 < i := by omega
      rw [ih (i0 + 1) i h1 (by omega) (by simp only [List.length_cons] at hlt; omega)]
      have hsome : ∃ w, t[i - (i0 + 1)]? = some w := by
        have : i - (i0 + 1) < t.length := by simp only [List.length_cons] at hlt; omega
        exact ⟨_, List.getElem?_eq_getElem this⟩
      obtain ⟨w, hw⟩ := hsome
      rw [hw]
      have : (a :: t)[i - i0]? = t[i - (i0 + 1)]? := by
        rw [show i - i0 = (i - (i0 + 1)) + 1 by omega]
        exact List.getElem?_cons_succ
      rw [this, hw]
      rfl

theorem lastAssign_undef (params : List String) (hu : "undefined" ∉ params) :
    ∀ (rest : List JVal) (i0 : Nat),
      lastAssign params i0 rest "undefined" =
        if params.length < i0 + rest.length then rest.getLast? else none := by
  intro rest
  induction rest with
  | nil => intro i0; simp [lastAssign]
  | cons a t ih =>
    intro i0
    simp only [lastAssign]
    rw [ih (i0 + 1)]
    simp only [List.length_cons]
    by_cases hc : params.length < i0 + (t.length + 1)
    · rw [if_pos (show params.length < i0 + 1 + t.length by omega), if_pos hc]
      cases t with
      | nil =>
        have h0 : params.length ≤ i0 := by simp only [List.length_nil] at hc; omega
        rw [if_pos (keyAt_ge h0)]
        simp
      | cons b u =>
        cases hlast : (b :: u).getLast? with
        | none => exact absurd (List.getLast?_eq_none_iff.mp hlast) (by simp)
        | some w =>
          simp only [Option.or]
          rw [show (a :: b :: u).getLast? = (b :: u).getLast? from rfl, hlast]
    · rw [if_neg (show ¬params.length < i0 + 1 + t.length by omega), if_neg hc]
      have hi0 : i0 < params.length := by omega
      rw [if_neg ?_]
      · rfl
      · rw [keyAt_lt hi0]
        intro hcon
        exact hu (hcon ▸ List.get_mem params _ _)

theorem sanitize_total_some (cfg : SConfig) (store : Store) (hw : wfStoreB store = true)
    (v : JVal) (hwv : wfValB store.length v = true) (hb : badTopB store v = false)
    (hu : v ≠ .undefined) : ∃ s, _sanitizeObject cfg store v = .ok (some s) := by
  obtain ⟨r, ext, hEq, hInv, hnone⟩ := serProp_total cfg store hw (store.length + 1) [] "" v
    ⟨List.nodup_nil, by simp⟩ hwv (by simp)
  cases r with
  | some s => exact ⟨s, by simp [_sanitizeObject, hu, hEq]⟩
  | none =>
    exfalso
    rcases hnone rfl with h | ⟨a, rfl, h⟩
    · exact hu h
    · rcases h with h | h <;> simp [badTopB, h] at hb

/-- Every invocation of the composed wrapper advances the shared counter
by exactly one, allocating exactly one fresh correlation id, on every
control path. -/
theorem decorated_seqId (cfg : SConfig) (store : Store) (m : Method) (seqId : Nat)
    (args : List JVal) : (decorated cfg store m seqId args).2.1 = seqId + 1 := by
  simp only [decorated, logDecorator]
  split
  · rfl
  · split
    · rfl
    · split
      · rfl
      · rfl
    · split
      · rfl
      · rfl
    · rfl

/-- The ids allocated by a run of successive invocations are the
consecutive integers starting right after the incoming counter value. -/
theorem runCalls_ids (cfg : SConfig) (store : Store) (m : Method) :
    ∀ (calls : List (List JVal)) (seqId : Nat),
      (runCalls cfg store m seqId calls).2.map (fun p => p.1) =
        List.range' (seqId + 1) calls.length := by
  intro calls
  induction calls with
  | nil => intro seqId; rfl
  | cons c rest ih =>
    intro seqId
    simp only [runCalls, List.map_cons, List.length_cons, decorated_seqId, ih,
      List.range'_succ]

theorem pairwise_lt_range' (s n : Nat) : (List.range' s n).Pairwise (· < ·) := by
  induction n generalizing s with
  | zero => simp
  | succ n ih =>
    rw [List.range'_succ]
    refine List.Pairwise.cons ?_ (ih (s + 1))
    intro b hb
    have := List.mem_range'_1.mp hb
    omega

/-!  ## Claim theorems -/

/-- The spec example store: an object that contains itself
(`a: 1, sub: <the object itself>`). -/
def selfRefStore : Store := [HNode.obj [("a", JVal.num 1), ("sub", JVal.ref 0)]]

/-- **C7.**  For every self-referential object, serializing never raises
(proved for every well-formed heap object, cyclic or not); every node
whose reference was already visited on the current serialization pass is
rendered as the literal marker `[Circular]`; and on the spec's example
the `sub` self-reference renders as `[Circular]`. -/
theorem circular_serialization_safe :
    (∀ (cfg : SConfig) (store : Store) (a : Nat) (fs : List (String × JVal)),
      wfStoreB store = true → store[a]? = some (.obj fs) →
      ∃ s, _sanitizeObject cfg store (.ref a) = .ok (some s)) ∧
    (∀ (cfg : SConfig) (store : Store) (fuel : Nat) (seen : List Nat) (name : String) (a : Nat),
      a ∈ seen →
      serProp cfg store (fuel + 1) seen name (.ref a) = .ok (some (.str "[Circular]"), seen)) ∧
    _sanitizeObject defaultConfig selfRefStore (.ref 0) =
      .ok (some (.obj [("a", SVal.num 1), ("sub", SVal.str "[Circular]")])) := by
  refine ⟨?_, ?_, rfl⟩
  · intro cfg store a fs hw hnode
    have halt : a < store.length := (List.getElem?_eq_some_iff.mp hnode).1
    exact sanitize_total_some cfg store hw _ (by simpa [wfValB] using halt)
      (by simp [badTopB, hnode]) (by simp)
  · intro cfg store fuel seen name a hmem
    simp only [serProp]
    rw [if_pos (by simpa [isSeenB] using List.elem_eq_true_of_mem hmem)]

/-- **C7 witness.** -/
theorem circular_serialization_safe_witness :
    (∃ s, _sanitizeObject defaultConfig selfRefStore (.ref 0) = .ok (some s)) ∧
    serProp defaultConfig selfRefStore (3 + 1) [0] "sub" (.ref 0) =
      .ok (some (.str "[Circular]"), [0]) :=
  ⟨circular_serialization_safe.1 defaultConfig selfRefStore 0 _ (by decide) rfl,
   circular_serialization_safe.2.1 defaultConfig selfRefStore 3 [0] "sub" 0 (by decide)⟩

/-- A store in which the same object is referenced from two sibling
fields, one of them named `password`: visiting `x` first pushes the
shared object onto `seen`, so the `password` field hits the circular
check before the redaction check. -/
def sharedPasswordStore : Store :=
  [HNode.obj [("x", JVal.ref 1), ("password", JVal.ref 1)], HNode.obj [("v", JVal.num 2)]]

/-- **C8 counterexample.**  A field named `password` (a configured
redacted name) whose value was already visited on the pass renders as
`[Circular]`, not `<removed>`: the circular check precedes the redaction
check in the replacer. -/
theorem redaction_overridden_by_circular_cex :
    "password" ∈ defaultConfig.removeFields ∧
    _sanitizeObject defaultConfig sharedPasswordStore (.ref 0) =
      .ok (some (.obj [("x", .obj [("v", SVal.num 2)]), ("password", .str "[Circular]")])) ∧
    SVal.str "[Circular]" ≠ SVal.str "<removed>" := by
  refine ⟨by decide, rfl, by simp⟩

/-- **C8 amended.**  A field whose name is in the configured
`removeFields` renders as the literal `<removed>` regardless of its
value's type and of the depth at which the field occurs — provided its
value is not an object reference already visited on the pass, in which
case the circular marker takes precedence. -/
theorem redaction_amended (cfg : SConfig) (store : Store) (fuel : Nat) (seen : List Nat)
    (name : String) (v : JVal) (hrem : cfg.removeFields.contains name = true)
    (hns : isSeenB seen v = false) :
    serProp cfg store (fuel + 1) seen name v = .ok (some (.str "<removed>"), pushSeen seen v) := by
  simp only [serProp]
  rw [if_neg (by simp [hns]), if_pos hrem]

/-- **C8 witness.** -/
theorem redaction_amended_witness :
    serProp defaultConfig [] (0 + 1) [] "password" (JVal.str "hunter2") =
      .ok (some (.str "<removed>"), []) ∧
    serProp defaultConfig [] (0 + 1) [] "token" (JVal.num 7) =
      .ok (some (.str "<removed>"), []) :=
  ⟨redaction_amended defaultConfig [] 0 [] "password" (JVal.str "hunter2") rfl rfl,
   redaction_amended defaultConfig [] 0 [] "token" (JVal.num 7) rfl rfl⟩

/-- A diamond: two sibling fields share the same (acyclic) sub-object. -/
def dagStore : Store :=
  [HNode.obj [("x", JVal.ref 1), ("y", JVal.ref 1)], HNode.obj [("v", JVal.num 2)]]

/-- **C10.**  Within one serialization pass the visited-reference set only
ever grows (every successful replacer step extends `seen`, never clears
it); consequently the second occurrence of a shared sub-object in an
acyclic diamond renders as `[Circular]`; and a fresh top-level
serialization of that same sub-object starts from an empty visited set
and renders it in full. -/
theorem visited_set_monotone_dag :
    (∀ (cfg : SConfig) (store : Store) (fuel : Nat) (seen : List Nat) (name : String)
      (v : JVal) (r : Option SVal) (seen2 : List Nat),
      serProp cfg store fuel seen name v = .ok (r, seen2) → ∃ ext, seen2 = seen ++ ext) ∧
    _sanitizeObject defaultConfig dagStore (.ref 0) =
      .ok (some (.obj [("x", .obj [("v", SVal.num 2)]), ("y", .str "[Circular]")])) ∧
    _sanitizeObject defaultConfig dagStore (.ref 1) = .ok (some (.obj [("v", SVal.num 2)])) := by
  exact ⟨fun cfg store fuel seen name v r seen2 h => serProp_seen_mono cfg store fuel seen name v r seen2 h,
    rfl, rfl⟩

/-- **C10 witness.** -/
theorem visited_set_monotone_dag_witness :
    ∃ ext, ([1] : List Nat) = [] ++ ext :=
  visited_set_monotone_dag.1 defaultConfig dagStore 3 [] "" (.ref 1)
    (some (.obj [("v", SVal.num 2)])) [1] rfl

/-- A heap holding a single function object. -/
def funcStore : Store := [HNode.func]

/-- A synchronous method whose schema is satisfied and whose result is a
function value — a value `JSON.stringify` renders as the absent value. -/
def methodC1 : Method :=
  { methodName := "mk", params := ["x"], validator := fun v => .ok v,
    sync := true, removeOutput := false, fn := fun _ => .ok (.value (.ref 0)) }

/-- **C1 counterexample.**  The serializer raises on a function value
(`JSON.parse(JSON.stringify(fn))` throws, and this version of
`_sanitizeObject` has no try/catch): the failure propagates to the caller
of the decorated operation instead of being recovered, and no exit or
error record is emitted after the enter record. -/
theorem serialize_never_raises_cex :
    _sanitizeObject defaultConfig funcStore (.ref 0) = .error () ∧
    (decorated defaultConfig funcStore methodC1 0 [JVal.num 1]).1 = .error .serFail ∧
    (decorated defaultConfig funcStore methodC1 0 [JVal.num 1]).2.2 =
      [.debug 1 "ENTER mk:" "\x7b x: 1 \x7d"] :=
  ⟨rfl, rfl, rfl⟩

/-- **C1 amended.**  The serializer returns a text rendering without
raising for `undefined` and for every well-formed value except a
top-level function object; on a top-level function it raises, and —
because there is no fallback in this version — the raised failure
propagates out of the decorated call and suppresses the exit record. -/
theorem serialize_amended :
    (∀ (cfg : SConfig) (store : Store) (v : JVal), wfStoreB store = true →
      wfValB store.length v = true → badTopB store v = false →
      ∃ s, _serializeObject cfg store v = .ok s) ∧
    (∀ (cfg : SConfig) (store : Store) (a : Nat), store[a]? = some .func →
      cfg.removeFields.contains "" = false →
      _sanitizeObject cfg store (.ref a) = .error ()) ∧
    (∀ (cfg : SConfig) (store : Store) (methodName : String) (params : List String)
      (f : JsFun) (seqId : Nat) (args : List JVal) (fmt : String) (v : JVal),
      (if params.length != 0 then serializeNamedArgs cfg store params args
        else .ok "\x7b \x7d") = .ok fmt →
      f args = .ok (.value v) →
      _serializeObject cfg store v = .error () →
      logDecorator cfg store methodName params false f seqId args =
        (.error .serFail, seqId + 1,
         [.debug (seqId + 1) ("ENTER " ++ methodName ++ ":") fmt])) := by
  refine ⟨?_, ?_, ?_⟩
  · intro cfg store v hw hwv hb
    exact serializeObject_ok (sanitize_total cfg store hw v hwv hb)
  · intro cfg store a hnode hempty
    exact sanitize_raises_on_func cfg store a hnode hempty
  · intro cfg store methodName params f seqId args fmt v henter hfn hser
    simp only [logDecorator, henter, hfn, exitFmt, Bool.false_eq_true, if_false, hser]

/-- **C1 witness.** -/
theorem serialize_amended_witness :
    (∃ s, _serializeObject defaultConfig selfRefStore (.ref 0) = .ok s) ∧
    _sanitizeObject defaultConfig funcStore (.ref 0) = .error () ∧
    logDecorator defaultConfig funcStore "mk" ["x"] false
        (fun _ => .ok (.value (.ref 0))) 0 [JVal.num 1] =
      (.error .serFail, 1, [.debug 1 "ENTER mk:" "\x7b x: 1 \x7d"]) :=
  ⟨serialize_amended.1 defaultConfig selfRefStore (.ref 0) (by decide) (by decide) (by decide),
   serialize_amended.2.1 defaultConfig funcStore 0 rfl rfl,
   serialize_amended.2.2 defaultConfig funcStore "mk" ["x"]
     (fun _ => .ok (.value (.ref 0))) 0 [JVal.num 1] "\x7b x: 1 \x7d" (.ref 0) rfl rfl rfl⟩

/-- **C2.**  When the schema engine rejects the named arguments: a
declared-synchronous operation re-raises the validation error
synchronously, and an asynchronous operation never throws synchronously
— the wrapper returns a rejected promise carrying the same validation
failure. -/
theorem validate_failure_channels (m : Method) (args : List JVal) (e : JVal)
    (hfail : m.validator (_combineObject m.params args) = .error e) :
    (m.sync = true → validateDecorator m args = .error (.userE e)) ∧
    (m.sync = false → validateDecorator m args = .ok (.promise (.error (.userE e)))) := by
  constructor <;> intro h <;> simp [validateDecorator, hfail, h]

/-- A declared-synchronous method whose schema always rejects. -/
def syncFailMethod : Method :=
  { methodName := "s", params := ["x"], validator := fun _ => .error (.str "bad"),
    sync := true, removeOutput := false, fn := fun _ => .ok (.value .null) }

/-- The same method declared asynchronous. -/
def asyncFailMethod : Method :=
  { syncFailMethod with sync := false }

/-- **C2 witness.** -/
theorem validate_failure_channels_witness :
    validateDecorator syncFailMethod [JVal.num 1] = .error (.userE (.str "bad")) ∧
    validateDecorator asyncFailMethod [JVal.num 1] =
      .ok (.promise (.error (.userE (.str "bad")))) :=
  ⟨(validate_failure_channels syncFailMethod [JVal.num 1] (JVal.str "bad") rfl).1 rfl,
   (validate_failure_channels asyncFailMethod [JVal.num 1] (JVal.str "bad") rfl).2 rfl⟩

/-- **C5 counterexample.**  Runtime arguments beyond the declared
parameter count are not silently dropped: `params[i]` is `undefined`
there, and the property write lands on the key `"undefined"` (the last
extra argument wins); with an empty parameter list and one argument the
named mapping is not empty. -/
theorem combineObject_extra_args_cex :
    _combineObject [] [JVal.num 1] = [("undefined", JVal.num 1)] ∧
    ([("undefined", JVal.num 1)] : List (String × JVal)) ≠ ([] : List (String × JVal)) ∧
    _combineObject ["a"] [JVal.num 1, JVal.num 2, JVal.num 3] =
      [("a", JVal.num 1), ("undefined", JVal.num 3)] :=
  ⟨rfl, by decide, rfl⟩

/-- **C5 amended.**  The argument mapper maps arguments to names by
position for every in-range index; arguments beyond the declared
parameter count all write to the key `"undefined"`, whose final value is
the last argument when there are extra arguments and which is absent
otherwise (assuming distinct parameter names none of which is the string
`"undefined"`). -/
theorem combineObject_amended (params : List String) (args : List JVal)
    (hnd : params.Nodup) (hu : "undefined" ∉ params) :
    (∀ (i : Nat) (h1 : i < params.length) (h2 : i < args.length),
      lookupKey (_combineObject params args) (params.get ⟨i, h1⟩) = some (args.get ⟨i, h2⟩)) ∧
    lookupKey (_combineObject params args) "undefined" =
      (if params.length < args.length then args.getLast? else none) := by
  have hbase : ∀ k, lookupKey (_combineObject params args) k = lastAssign params 0 args k := by
    intro k
    show lookupKey (combineGo params 0 args []) k = _
    rw [combineGo_lookup params args 0 [] k]
    simp [lookupKey]
  constructor
  · intro i h1 h2
    rw [hbase, lastAssign_pos params hu hnd args 0 i h1 (by omega)
      (by simpa using h2)]
    simp [List.getElem?_eq_getElem h2]
  · rw [hbase, lastAssign_undef params hu args 0]
    simp

/-- **C5 witness.** -/
theorem combineObject_amended_witness :
    lookupKey (_combineObject ["a", "b"] [JVal.num 1, JVal.num 2, JVal.num 3]) "a" =
      some (JVal.num 1) ∧
    lookupKey (_combineObject ["a", "b"] [JVal.num 1, JVal.num 2, JVal.num 3]) "undefined" =
      some (JVal.num 3) := by
  have h := combineObject_amended ["a", "b"] [JVal.num 1, JVal.num 2, JVal.num 3]
    (by decide) (by decide)
  exact ⟨by simpa using h.1 0 (by decide) (by decide), by simpa using h.2⟩

/-- An already-decorated operation used to observe a configuration
change: its wrapper reads the global configuration at call time. -/
def methodC9 : Method :=
  { methodName := "getData", params := ["secret"], validator := fun v => .ok v,
    sync := true, removeOutput := false, fn := fun _ => .ok (.value .null) }

/-- **C9.**  `configure` merges the supplied partial options into the
existing configuration: every supplied key is overwritten and every
absent key is left unchanged (never a full replacement); and the merged
values take effect for calls made after the `configure` call on an
operation decorated earlier, without re-decoration — the same wrapper
redacts a newly configured field name. -/
theorem configure_merge_and_effect :
    (∀ (c : SConfig) (o : ConfigOpts),
      (∀ r, o.removeFields = some r → (configure c o).removeFields = r) ∧
      (o.removeFields = none → (configure c o).removeFields = c.removeFields) ∧
      (∀ b, o.debug = some b → (configure c o).debug = b) ∧
      (o.debug = none → (configure c o).debug = c.debug) ∧
      (∀ d, o.depth = some d → (configure c o).depth = d) ∧
      (o.depth = none → (configure c o).depth = c.depth) ∧
      (∀ n, o.maxArrayLength = some n → (configure c o).maxArrayLength = n) ∧
      (o.maxArrayLength = none → (configure c o).maxArrayLength = c.maxArrayLength)) ∧
    (decorated defaultConfig [] methodC9 0 [JVal.num 5]).2.2 =
      [.debug 1 "ENTER getData:" "\x7b secret: 5 \x7d", .debug 1 " EXIT getData:" "null"] ∧
    (decorated (configure defaultConfig { removeFields := some ["secret"] }) []
        methodC9 0 [JVal.num 5]).2.2 =
      [.debug 1 "ENTER getData:" "\x7b secret: \x27<removed>\x27 \x7d",
       .debug 1 " EXIT getData:" "null"] := by
  refine ⟨?_, rfl, rfl⟩
  intro c o
  refine ⟨?_, ?_, ?_, ?_, ?_, ?_, ?_, ?_⟩ <;> intro h <;> try intro hh
  all_goals simp_all [configure]

/-- **C9 witness.** -/
theorem configure_merge_and_effect_witness :
    (configure defaultConfig { removeFields := some ["secret"] }).removeFields = ["secret"] ∧
    (configure defaultConfig { removeFields := some ["secret"] }).depth = defaultConfig.depth :=
  ⟨(configure_merge_and_effect.1 defaultConfig { removeFields := some ["secret"] }).1
      ["secret"] rfl,
   (configure_merge_and_effect.1 defaultConfig { removeFields := some ["secret"] }).2.2.2.2.2.1 rfl⟩

/-- A decorated operation whose underlying function throws
synchronously. -/
def methodC3 : Method :=
  { methodName := "boom", params := ["x"], validator := fun v => .ok v,
    sync := true, removeOutput := false, fn := fun _ => .error (.userE (.str "boom")) }

/-- **C3 counterexample.**  When the wrapped function throws
synchronously, the error record emitted is `logger.error(e)` — it carries
the raw error but no correlation id (`recId = none`), contradicting the
claim that the error record always carries the correlation id.  The
error itself is re-raised unchanged. -/
theorem sync_error_record_lacks_id_cex :
    (decorated defaultConfig [] methodC3 0 [JVal.num 1]).2.2 =
      [.debug 1 "ENTER boom:" "\x7b x: 1 \x7d", .errorPlain (.userE (.str "boom"))] ∧
    (LogRecord.errorPlain (.userE (.str "boom"))).recId = none ∧
    (decorated defaultConfig [] methodC3 0 [JVal.num 1]).1 = .error (.userE (.str "boom")) :=
  ⟨rfl, rfl, rfl⟩

/-- **C3 amended.**  When the wrapped function fails, the logging wrapper
re-raises (sync) or re-propagates (async) the very same error value
unchanged and never swallows it; the error-level record carries the
correlation id and the serialized input in the asynchronous-rejection
path, while the synchronous-throw path logs the raw error without the
correlation id. -/
theorem operation_failure_logging_amended (cfg : SConfig) (store : Store)
    (methodName : String) (params : List String) (removeOutput : Bool) (f : JsFun)
    (seqId : Nat) (args : List JVal) (fmt : String)
    (henter : (if params.length != 0 then serializeNamedArgs cfg store params args
      else .ok "\x7b \x7d") = .ok fmt) :
    (∀ e, f args = .error e →
      logDecorator cfg store methodName params removeOutput f seqId args =
        (.error e, seqId + 1,
         [.debug (seqId + 1) ("ENTER " ++ methodName ++ ":") fmt, .errorPlain e])) ∧
    (∀ e, f args = .ok (.promise (.error e)) →
      logDecorator cfg store methodName params removeOutput f seqId args =
        (.ok (.promise (.error e)), seqId + 1,
         [.debug (seqId + 1) ("ENTER " ++ methodName ++ ":") fmt,
          .errorWithId (seqId + 1) ("ERROR " ++ methodName ++ ": " ++ fmt ++ " \n") e])) := by
  constructor <;> intro e hfn <;> simp only [logDecorator, henter, hfn]

/-- An operation whose result is a rejected promise. -/
def methodC3r : Method :=
  { methodName := "rej", params := ["x"], validator := fun v => .ok v,
    sync := false, removeOutput := false,
    fn := fun _ => .ok (.promise (.error (.userE (.str "no")))) }

/-- **C3 witness.** -/
theorem operation_failure_logging_amended_witness :
    logDecorator defaultConfig [] "boom" ["x"] false methodC3.fn 0 [JVal.num 1] =
      (.error (.userE (.str "boom")), 1,
       [.debug 1 "ENTER boom:" "\x7b x: 1 \x7d", .errorPlain (.userE (.str "boom"))]) ∧
    logDecorator defaultConfig [] "rej" ["x"] false methodC3r.fn 0 [JVal.num 1] =
      (.ok (.promise (.error (.userE (.str "no")))), 1,
       [.debug 1 "ENTER rej:" "\x7b x: 1 \x7d",
        .errorWithId 1 "ERROR rej: \x7b x: 1 \x7d \n" (.userE (.str "no"))]) :=
  ⟨(operation_failure_logging_amended defaultConfig [] "boom" ["x"] false methodC3.fn 0
      [JVal.num 1] "\x7b x: 1 \x7d" rfl).1 (.userE (.str "boom")) rfl,
   (operation_failure_logging_amended defaultConfig [] "rej" ["x"] false methodC3r.fn 0
      [JVal.num 1] "\x7b x: 1 \x7d" rfl).2 (.userE (.str "no")) rfl⟩

/-- A synchronous operation with a satisfied schema whose return value is
a function object. -/
def methodC4 : Method :=
  { methodName := "getFn", params := ["x"], validator := fun v => .ok v,
    sync := true, removeOutput := false, fn := fun _ => .ok (.value (.ref 0)) }

/-- **C4 counterexample.**  A synchronous operation with satisfied schema
whose return value is a function object: the original function returns
the function value, but the composed wrapper throws the serializer's
failure instead of returning it — the `logExit` serialization raises
before the value can be returned. -/
theorem passthrough_cex :
    methodC4.validator (_combineObject methodC4.params [JVal.num 1]) =
      .ok (_combineObject methodC4.params [JVal.num 1]) ∧
    methodC4.fn (newArgsOf methodC4.params (_combineObject methodC4.params [JVal.num 1])) =
      .ok (.value (.ref 0)) ∧
    (decorated defaultConfig funcStore methodC4 0 [JVal.num 1]).1 = .error .serFail ∧
    (Except.error Thrown.serFail : Except Thrown Outcome) ≠ .ok (.value (.ref 0)) :=
  ⟨rfl, rfl, rfl, fun h => nomatch h⟩

/-- **C4 amended.**  For a satisfied schema, the composed wrapper invokes
the original function on the positional arguments reconstructed from the
normalized mapping in declared parameter order and returns its result
unchanged — an immediate value, a resolved deferred value, or a rejected
deferred value — provided the result's exit-record formatting does not
itself raise (which holds in particular whenever `removeOutput` is set or
the result serializes successfully). -/
theorem passthrough_amended (cfg : SConfig) (store : Store) (m : Method) (seqId : Nat)
    (args : List JVal) (normalized : List (String × JVal))
    (hw : wfStoreB store = true) (hargs : ∀ v ∈ args, wfValB store.length v = true)
    (hval : m.validator (_combineObject m.params args) = .ok normalized) :
    (∀ v out, m.fn (newArgsOf m.params normalized) = .ok (.value v) →
      exitFmt cfg store m.removeOutput v = .ok out →
      (decorated cfg store m seqId args).1 = .ok (.value v)) ∧
    (∀ v out, m.fn (newArgsOf m.params normalized) = .ok (.promise (.ok v)) →
      exitFmt cfg store m.removeOutput v = .ok out →
      (decorated cfg store m seqId args).1 = .ok (.promise (.ok v))) ∧
    (∀ e, m.fn (newArgsOf m.params normalized) = .ok (.promise (.error e)) →
      (decorated cfg store m seqId args).1 = .ok (.promise (.error e))) := by
  have henter : ∃ fmt,
      (if m.params.length != 0 then serializeNamedArgs cfg store m.params args
        else .ok "\x7b \x7d") = .ok fmt := by
    by_cases hp : m.params.length != 0
    · rw [if_pos hp]
      exact serializeNamedArgs_ok cfg store m.params args hw hargs
    · rw [if_neg hp]
      exact ⟨_, rfl⟩
  obtain ⟨fmt, henter⟩ := henter
  have hvd : validateDecorator m args = m.fn (newArgsOf m.params normalized) := by
    simp [validateDecorator, hval]
  refine ⟨?_, ?_, ?_⟩
  · intro v out hfn hout
    simp only [decorated, logDecorator, henter, hvd, hfn, hout]
  · intro v out hfn hout
    simp only [decorated, logDecorator, henter, hvd, hfn, hout]
  · intro e hfn
    simp only [decorated, logDecorator, henter, hvd, hfn]

/-- A synchronous addition-like operation used as the C4 witness: the
validator normalizes the arguments (as Joi coerces `"2"` to `2`) and the
function returns the sum. -/
def methodC4w : Method :=
  { methodName := "add", params := ["a", "b"], sync := true, removeOutput := false,
    validator := fun v =>
      .ok [("a", v.headD ("a", .num 0) |>.2), ("b", .num 2)],
    fn := fun args =>
      match args with
      | [.num x, .num y] => .ok (.value (.num (x + y)))
      | _ => .ok (.value .null) }

/-- **C4 witness.** -/
theorem passthrough_amended_witness :
    (decorated defaultConfig [] methodC4w 0 [JVal.num 1, JVal.str "2"]).1 =
      .ok (.value (.num 3)) :=
  (passthrough_amended defaultConfig [] methodC4w 0 [JVal.num 1, JVal.str "2"]
      [("a", .num 1), ("b", .num 2)] (by decide) (by decide) rfl).1
    (.num 3) "3" rfl rfl

/-- A sync-throwing operation for the C6 counterexample. -/
def methodC6 : Method :=
  { methodName := "crash", params := ["x"], validator := fun v => .ok v,
    sync := true, removeOutput := false, fn := fun _ => .error (.userE (.num 7)) }

/-- **C6 counterexample.**  For a synchronously-throwing invocation the
allocated correlation id (1) appears only in the enter record: the
matching error record is `logger.error(e)` and carries no id, so the id
is not shared by the enter record and its matching exit-or-error
record. -/
theorem correlation_pairing_cex :
    (decorated defaultConfig [] methodC6 0 [JVal.num 1]).2.2 =
      [.debug 1 "ENTER crash:" "\x7b x: 1 \x7d", .errorPlain (.userE (.num 7))] ∧
    ((decorated defaultConfig [] methodC6 0 [JVal.num 1]).2.2.filterMap
      LogRecord.recId) = [1] :=
  ⟨rfl, rfl⟩

/-- **C6 amended.**  Each invocation allocates exactly one fresh
correlation id (the counter advances by exactly one on every control
path); the ids allocated by successive invocations are the consecutive
integers after the incoming counter value, hence strictly increasing;
after `resetId` the next allocated id is 1; the id is shared by the
enter record and the exit record on success (immediate or deferred) and
by the enter record and the error record on an asynchronous failure,
while a synchronous throw logs its error record without the id. -/
theorem correlation_ids_amended :
    (∀ (cfg : SConfig) (store : Store) (m : Method) (seqId : Nat) (args : List JVal),
      (decorated cfg store m seqId args).2.1 = seqId + 1) ∧
    (∀ (cfg : SConfig) (store : Store) (m : Method) (calls : List (List JVal)) (seqId : Nat),
      (runCalls cfg store m seqId calls).2.map (fun p => p.1) =
        List.range' (seqId + 1) calls.length) ∧
    (∀ (cfg : SConfig) (store : Store) (m : Method) (calls : List (List JVal)) (seqId : Nat),
      ((runCalls cfg store m seqId calls).2.map (fun p => p.1)).Pairwise (· < ·)) ∧
    (∀ (cfg : SConfig) (store : Store) (m : Method) (calls : List (List JVal)),
      (runCalls cfg store m resetId calls).2.map (fun p => p.1) =
        List.range' 1 calls.length) ∧
    (∀ (cfg : SConfig) (store : Store) (methodName : String) (params : List String)
      (removeOutput : Bool) (f : JsFun) (seqId : Nat) (args : List JVal) (fmt : String),
      (if params.length != 0 then serializeNamedArgs cfg store params args
        else .ok "\x7b \x7d") = .ok fmt →
      (∀ v out, f args = .ok (.value v) → exitFmt cfg store removeOutput v = .ok out →
        (logDecorator cfg store methodName params removeOutput f seqId args).2.2.filterMap
          LogRecord.recId = [seqId + 1, seqId + 1]) ∧
      (∀ v out, f args = .ok (.promise (.ok v)) → exitFmt cfg store removeOutput v = .ok out →
        (logDecorator cfg store methodName params removeOutput f seqId args).2.2.filterMap
          LogRecord.recId = [seqId + 1, seqId + 1]) ∧
      (∀ e, f args = .ok (.promise (.error e)) →
        (logDecorator cfg store methodName params removeOutput f seqId args).2.2.filterMap
          LogRecord.recId = [seqId + 1, seqId + 1]) ∧
      (∀ e, f args = .error e →
        (logDecorator cfg store methodName params removeOutput f seqId args).2.2.filterMap
          LogRecord.recId = [seqId + 1])) := by
  refine ⟨decorated_seqId, ?_, ?_, ?_, ?_⟩
  · intro cfg store m calls seqId
    exact runCalls_ids cfg store m calls seqId
  · intro cfg store m calls seqId
    rw [runCalls_ids cfg store m calls seqId]
    exact pairwise_lt_range' _ _
  · intro cfg store m calls
    exact runCalls_ids cfg store m calls resetId
  · intro cfg store methodName params removeOutput f seqId args fmt henter
    refine ⟨?_, ?_, ?_, ?_⟩
    · intro v out hfn hout
      simp only [logDecorator, henter, hfn, hout]
      rfl
    · intro v out hfn hout
      simp only [logDecorator, henter, hfn, hout]
      rfl
    · intro e hfn
      simp only [logDecorator, henter, hfn]
      rfl
    · intro e hfn
      simp only [logDecorator, henter, hfn]
      rfl

/-- **C6 witness.** -/
theorem correlation_ids_amended_witness :
    (decorated defaultConfig [] methodC9 0 [JVal.num 5]).2.1 = 1 ∧
    (runCalls defaultConfig [] methodC9 resetId
      [[JVal.num 5], [JVal.num 6], [JVal.num 7]]).2.map (fun p => p.1) = [1, 2, 3] ∧
    (logDecorator defaultConfig [] "getData" ["secret"] false methodC9.fn 4
      [JVal.num 5]).2.2.filterMap LogRecord.recId = [5, 5] ∧
    (logDecorator defaultConfig [] "fetch" ["x"] false
      (fun _ => .ok (.promise (.ok (JVal.num 2)))) 4
      [JVal.num 5]).2.2.filterMap LogRecord.recId = [5, 5] := by
  refine ⟨correlation_ids_amended.1 defaultConfig [] methodC9 0 [JVal.num 5], ?_, ?_, ?_⟩
  · rw [correlation_ids_amended.2.2.2.1 defaultConfig [] methodC9
      [[JVal.num 5], [JVal.num 6], [JVal.num 7]]]
    rfl
  · exact (correlation_ids_amended.2.2.2.2 defaultConfig [] "getData" ["secret"] false
      methodC9.fn 4 [JVal.num 5] "\x7b secret: 5 \x7d" rfl).1 .null "null" rfl rfl
  · exact (correlation_ids_amended.2.2.2.2 defaultConfig [] "fetch" ["x"] false
      (fun _ => .ok (.promise (.ok (JVal.num 2)))) 4 [JVal.num 5]
      "\x7b x: 5 \x7d" rfl).2.1 (JVal.num 2) "2" rfl rfl
